import Mathlib

/-!
Shallow embedding of `simple_mechanisms/hyperparameter_optimization.py`.

The script builds a fixed one-hot category table for 79 seat indices,
selects a differential-privacy penalty form from the target delta,
and per trial samples three penalty weights, trains logits and evaluates
empirical (epsilon, delta) privacy metrics of the resulting per-seat
softmax distributions.

Python index errors (out-of-range list subscripts) are modelled with
`Option`: `none` means the construction raised.  Real-valued numpy/jax
computations are modelled over `ℝ`.
-/

namespace HyperparamOpt

/-! ### Category table construction (module level, lines 20-28) -/

/-- Module-level constant `n_seats = 78`. -/
def n_seats : ℕ := 78

/-- Module-level constant `n_cats = 6`. -/
def n_cats : ℕ := 6

/-- Module-level constant `cat_edges = [5, 40, 50, 65, 72, 78]`. -/
def cat_edges : List ℕ := [5, 40, 50, 65, 72, 78]

/-- Row `j` of `np.eye(c)`: the one-hot vector of length `c` with a `1` at
position `j`. -/
def oneHot (c j : ℕ) : List ℕ :=
  (List.range c).map (fun k => if k = j then 1 else 0)

/-- One iteration of the category-assignment loop body (lines 26-28):
read `cat_edges[j]` (IndexError when `j` is out of range, modelled as
`none`), bump `j` when `i > cat_edges[j]`, then read `np.eye(c)[j]`
(IndexError when the bumped `j` is `≥ c`, modelled as `none`).  Returns
the updated `j` together with the one-hot row assigned to seat `i`. -/
def catStep (es : List ℕ) (c i j : ℕ) : Option (ℕ × List ℕ) :=
  match es[j]? with
  | none => none
  | some e =>
    let j2 := if e < i then j + 1 else j
    if j2 < c then some (j2, oneHot c j2) else none

/-- The category-assignment loop (lines 24-28): `m` iterations remaining,
current seat index `i`, current category cursor `j`; collects the one-hot
rows in order.  Any IndexError aborts the whole construction (`none`). -/
def catLoop (es : List ℕ) (c : ℕ) : ℕ → ℕ → ℕ → Option (List (List ℕ))
  | 0, _, _ => some []
  | m + 1, i, j =>
    match catStep es c i j with
    | none => none
    | some (j2, row) => Option.map (fun t => row :: t) (catLoop es c m (i + 1) j2)

/-- The `categories` table (lines 23-28): one one-hot row for each seat
index `i ∈ range(seats+1)`, starting from `j = 0`. -/
def categories (seats c : ℕ) (es : List ℕ) : Option (List (List ℕ)) :=
  catLoop es c (seats + 1) 0 0

/-- The concrete 79 × 6 category table of the script. -/
def catTable : List (List ℕ) :=
  (categories n_seats n_cats cat_edges).getD []

/-! ### The DP metric evaluator `evaluate_results` (lines 91-105)

The logits are reshaped to `(n_seats+1, n_cats)`; we model the reshaped
array directly as a function `Fin (n+2) → Fin (c+1) → ℝ` (so there are at
least two rows and one column; with fewer, `jnp.max` over the empty array
of adjacent-row differences would itself raise). -/

/-- Row-wise `jax.nn.log_softmax` (line 92): entry `(i, k)` is
`logits[i,k] - log (Σ_m exp logits[i,m])`. -/
noncomputable def log_softmax (n c : ℕ) (logits : Fin (n + 2) → Fin (c + 1) → ℝ)
    (i : Fin (n + 2)) (k : Fin (c + 1)) : ℝ :=
  logits i k - Real.log (∑ m, Real.exp (logits i m))

/-- `probs = jnp.exp(log_probs)` (line 95). -/
noncomputable def probs (n c : ℕ) (logits : Fin (n + 2) → Fin (c + 1) → ℝ)
    (i : Fin (n + 2)) (k : Fin (c + 1)) : ℝ :=
  Real.exp (log_softmax n c logits i k)

/-- `epsilon_total` (line 98): the `jnp.max` over all adjacent-row pairs
and categories of `relu(|log_probs[i+1,k] - log_probs[i,k]| - eps_target)`. -/
noncomputable def epsilon_total (n c : ℕ) (logits : Fin (n + 2) → Fin (c + 1) → ℝ)
    (eps_target : ℝ) : ℝ :=
  Finset.univ.sup' Finset.univ_nonempty
    (fun p : Fin (n + 1) × Fin (c + 1) =>
      max (|log_softmax n c logits p.1.succ p.2 - log_softmax n c logits p.1.castSucc p.2|
            - eps_target) 0)

/-- `delta_add` (line 101): max over adjacent pairs of the per-row sum of
`clip(probs[i,k] - exp(eps)*probs[i+1,k], a_min=0)`. -/
noncomputable def delta_add (n c : ℕ) (logits : Fin (n + 2) → Fin (c + 1) → ℝ)
    (eps_target : ℝ) : ℝ :=
  Finset.univ.sup' Finset.univ_nonempty
    (fun i : Fin (n + 1) =>
      ∑ k, max (probs n c logits i.castSucc k - Real.exp eps_target * probs n c logits i.succ k) 0)

/-- `delta_remove` (line 102): the mirror of `delta_add`, with the roles of
rows `i` and `i+1` swapped. -/
noncomputable def delta_remove (n c : ℕ) (logits : Fin (n + 2) → Fin (c + 1) → ℝ)
    (eps_target : ℝ) : ℝ :=
  Finset.univ.sup' Finset.univ_nonempty
    (fun i : Fin (n + 1) =>
      ∑ k, max (probs n c logits i.succ k - Real.exp eps_target * probs n c logits i.castSucc k) 0)

/-- `delta_total` (line 103): the max of the two directions. -/
noncomputable def delta_total (n c : ℕ) (logits : Fin (n + 2) → Fin (c + 1) → ℝ)
    (eps_target : ℝ) : ℝ :=
  max (delta_add n c logits eps_target) (delta_remove n c logits eps_target)

/-! ### Penalty-path selection and startup validation (lines 63-78) -/

/-- The DP-violation penalty forms importable from `infer`: the pure-DP
penalty is specialized with the target epsilon, the approximate-DP penalty
with the target epsilon and delta (the specialized applications of lines
76 and 78, keeping only the data that selects and parametrizes the path). -/
inductive DpPenaltyKind : Type where
  | pure_dp : ℝ → DpPenaltyKind
  | adp : ℝ → ℝ → DpPenaltyKind

/-- Penalty-path choice (lines 75-78): pure DP iff the target delta is
exactly zero, otherwise approximate DP. -/
noncomputable def dp_penalty_fn (epsilon delta_target : ℝ) : DpPenaltyKind :=
  if delta_target = 0 then DpPenaltyKind.pure_dp epsilon
  else DpPenaltyKind.adp epsilon delta_target

/-- Startup path of `main` (lines 63-66, 75-78, 144-146): the assertion
`epsilon > 0 and 0 <= delta_target <= 1` runs before the penalty choice,
the study creation and the trials; an assertion failure (modelled `none`)
aborts before any of those, while on valid parameters execution continues
with the chosen penalty path and the requested number of trials. -/
noncomputable def main_startup (epsilon delta_target : ℝ) (num_trials : ℕ) :
    Option (DpPenaltyKind × ℕ) :=
  if 0 < epsilon ∧ 0 ≤ delta_target ∧ delta_target ≤ 1 then
    some (dp_penalty_fn epsilon delta_target, num_trials)
  else none

/-! ### Per-trial weight sampling (lines 108-110) -/

/-- The three penalty weights sampled at the start of each trial. -/
structure TrialWeights where
  dp_weight : ℝ
  l2_weight : ℝ
  dist_weight : ℝ

/-- Weight sampling of `objective` (lines 108-110), abstracted over the
sampler.  Modelled from the spec: `trial.suggest_float(name, low, high)` is
the external search library`s bounded scalar sampler, returning a value in
`[low, high]`; the ranges below are the source`s literal constants. -/
def sample_weights (suggest : String → ℝ → ℝ → ℝ) : TrialWeights :=
  { dp_weight := suggest "dp weight" 1e-3 1e1
    l2_weight := suggest "l2 weight" 1e-4 1e0
    dist_weight := suggest "dist. weight" 1e-5 1e-3 }

/-! ### The per-trial objective values (lines 117-125)

`objective` trains logits and then computes four scores from them; we
model the score computation as a function of the learned logits (the
training routine is an external collaborator). -/

/-- The category index of seat `i`: the column of the `1` in row `i` of the
category table (`np.where(categories)` row-wise, line 94). -/
def correct_cat (i : ℕ) : ℕ := (catTable.getD i []).indexOf 1

/-- `correct_cat` packaged as a `Fin 6` column index. -/
def correctFin (i : Fin 79) : Fin 6 :=
  ⟨correct_cat i.val % 6, Nat.mod_lt _ (by norm_num)⟩

/-- `distances` (line 31): the pairwise absolute category-index distance
`|a - b|`. -/
def distances (a b : ℕ) : ℕ := max a b - min a b

/-- `distance_matrix = categories @ distances` (line 32): entry `(i, k)`. -/
def distance_matrix (i k : ℕ) : ℕ :=
  ∑ m ∈ Finset.range 6, (catTable.getD i []).getD m 0 * distances m k

/-- `np.argmax` over a list: the index of the first occurrence of the
maximum. -/
def npArgmax (l : List ℕ) : ℕ := l.indexOf (l.foldr max 0)

/-- The furthest category of seat `i`:
`np.argmax(categories @ distances, axis=1)` (line 123). -/
def furthest_cat (i : Fin 79) : Fin 6 :=
  ⟨npArgmax ((List.range 6).map (fun k => distance_matrix i.val k)) % 6,
    Nat.mod_lt _ (by norm_num)⟩

/-- `np.linalg.norm` of a vector: the Euclidean norm. -/
noncomputable def npNorm {m : ℕ} (v : Fin m → ℝ) : ℝ :=
  Real.sqrt (∑ i, v i ^ 2)

/-- `logp_loss = np.linalg.norm(logp_correct)` (line 119): the norm of the
per-seat correct-category log-probabilities. -/
noncomputable def logp_loss (logits : Fin 79 → Fin 6 → ℝ) : ℝ :=
  npNorm (fun i => log_softmax 77 5 logits i (correctFin i))

/-- `dp_params_loss` (line 121): the sum of the (scalar) norms of the
deviations of the empirical epsilon and delta from their targets. -/
noncomputable def dp_params_loss (logits : Fin 79 → Fin 6 → ℝ)
    (epsilon delta_target : ℝ) : ℝ :=
  |epsilon_total 77 5 logits epsilon - epsilon| +
    |delta_total 77 5 logits epsilon - delta_target|

/-- `furthest_cat_logp` (line 123): the log-probability each seat assigns
to its furthest category. -/
noncomputable def furthest_cat_logp (logits : Fin 79 → Fin 6 → ℝ) (i : Fin 79) : ℝ :=
  log_softmax 77 5 logits i (furthest_cat i)

/-- `dist_loss = np.sum(np.exp(furthest_cat_logp) > 1e-3)` (line 124): the
count of seats whose furthest-category probability exceeds `1e-3`
(booleans summed as `0`/`1`). -/
noncomputable def dist_loss (logits : Fin 79 → Fin 6 → ℝ) : ℝ :=
  ∑ i : Fin 79, if (1e-3 : ℝ) < Real.exp (furthest_cat_logp logits i) then 1 else 0

/-- The 4-tuple returned by `objective` (line 125) as a function of the
learned logits and the targets. -/
noncomputable def objective_values (logits : Fin 79 → Fin 6 → ℝ)
    (epsilon delta_target : ℝ) : ℝ × ℝ × ℝ × ℝ :=
  (logp_loss logits,
   dp_params_loss logits epsilon delta_target,
   dist_loss logits,
   npNorm (fun i => Real.exp (furthest_cat_logp logits i)))

/-! ### Helper lemmas -/

/-- In a strictly ascending list, `getD` is monotone below the length. -/
lemma sorted_getD_le (es : List ℕ) (hs : es.Pairwise (· < ·)) {j k : ℕ}
    (hjk : j ≤ k) (hk : k < es.length) : es.getD j 0 ≤ es.getD k 0 := by
  rcases Nat.lt_or_ge j k with hlt | hge
  · have hj : j < es.length := lt_trans hlt hk
    rw [List.getD_eq_getElem es 0 hj, List.getD_eq_getElem es 0 hk]
    exact le_of_lt ((List.pairwise_iff_getElem.mp hs) j k hj hk hlt)
  · have : j = k := le_antisymm hjk hge
    subst this
    exact le_rfl

/-- Key bound: when the edges are strictly ascending and there are exactly
`c` of them, a successful run of `m` loop iterations starting at seat `i`
with cursor `j` (and the loop invariant `i ≤ es[j] + 1`) cannot advance the
seat index past one beyond the last edge. -/
lemma catLoop_bound (es : List ℕ) (c : ℕ) (hs : es.Pairwise (· < ·))
    (hlen : es.length = c) :
    ∀ (m i j : ℕ), j < es.length → i ≤ es.getD j 0 + 1 →
      (catLoop es c m i j).isSome = true →
      i + m ≤ es.getD (es.length - 1) 0 + 1 := by
  intro m
  induction m with
  | zero =>
    intro i j hj hinv _
    have hlast : es.length - 1 < es.length := Nat.sub_lt (by omega) one_pos
    have hmono : es.getD j 0 ≤ es.getD (es.length - 1) 0 :=
      sorted_getD_le es hs (Nat.le_sub_one_of_lt hj) hlast
    omega
  | succ m ih =>
    intro i j hj hinv hsome
    have he : es[j]? = some (es.getD j 0) := by
      rw [List.getD_eq_getElem es 0 hj]
      exact List.getElem?_eq_getElem hj
    set e := es.getD j 0 with hedef
    by_cases hei : e < i
    · -- the cursor is bumped to j + 1
      have hii : i = e + 1 := by omega
      by_cases hj2 : j + 1 < c
      · have hj2len : j + 1 < es.length := by omega
        have hadj : e < es.getD (j + 1) 0 := by
          rw [hedef, List.getD_eq_getElem es 0 hj, List.getD_eq_getElem es 0 hj2len]
          exact (List.pairwise_iff_getElem.mp hs) j (j + 1) hj hj2len (Nat.lt_succ_self j)
        have hrec : (catLoop es c m (i + 1) (j + 1)).isSome = true := by
          simp only [catLoop, catStep, he, if_pos hei, if_pos hj2] at hsome
          simpa using hsome
        have := ih (i + 1) (j + 1) hj2len (by omega) hrec
        omega
      · exfalso
        simp [catLoop, catStep, he, if_pos hei, if_neg hj2] at hsome
    · -- the cursor stays at j
      have hile : i ≤ e := by omega
      have hjc : j < c := by omega
      have hrec : (catLoop es c m (i + 1) j).isSome = true := by
        simp only [catLoop, catStep, he, if_neg hei, if_pos hjc] at hsome
        simpa using hsome
      have := ih (i + 1) j hj (by omega) hrec
      omega

/-- Each row of the softmax probabilities sums to `1`. -/
lemma sum_probs_eq_one (n c : ℕ) (logits : Fin (n + 2) → Fin (c + 1) → ℝ)
    (i : Fin (n + 2)) : ∑ k, probs n c logits i k = 1 := by
  have hS : (0 : ℝ) < ∑ m, Real.exp (logits i m) :=
    Finset.sum_pos (fun m _ => Real.exp_pos _) Finset.univ_nonempty
  have : ∀ k, probs n c logits i k = Real.exp (logits i k) / ∑ m, Real.exp (logits i m) := by
    intro k
    rw [probs, log_softmax, Real.exp_sub, Real.exp_log hS]
  rw [Finset.sum_congr rfl (fun k _ => this k), ← Finset.sum_div]
  exact div_self (ne_of_gt hS)

/-- The softmax probabilities are non-negative. -/
lemma probs_nonneg (n c : ℕ) (logits : Fin (n + 2) → Fin (c + 1) → ℝ)
    (i : Fin (n + 2)) (k : Fin (c + 1)) : 0 ≤ probs n c logits i k :=
  le_of_lt (Real.exp_pos _)

/-- A clipped per-seat delta sum is bounded by `1` (the total row mass). -/
lemma clip_sum_le_one (n c : ℕ) (logits : Fin (n + 2) → Fin (c + 1) → ℝ)
    (eps_target : ℝ) (a b : Fin (n + 2)) :
    ∑ k, max (probs n c logits a k - Real.exp eps_target * probs n c logits b k) 0 ≤ 1 := by
  calc ∑ k, max (probs n c logits a k - Real.exp eps_target * probs n c logits b k) 0
      ≤ ∑ k, probs n c logits a k := by
        apply Finset.sum_le_sum
        intro k _
        apply max_le
        · have hb : 0 ≤ Real.exp eps_target * probs n c logits b k :=
            mul_nonneg (le_of_lt (Real.exp_pos _)) (probs_nonneg n c logits b k)
          linarith
        · exact probs_nonneg n c logits a k
    _ = 1 := sum_probs_eq_one n c logits a

/-! ### Claims about the evaluator -/

/-- C1: `epsilon_total` is the maximum, over adjacent-seat pairs and
categories, of the positive part of the absolute log-probability difference
minus the target epsilon; it is exactly `0` when every adjacent
log-probability difference is within the target, and strictly positive
exactly when some pair exceeds it. -/
theorem c1_epsilon_total (n c : ℕ) (logits : Fin (n + 2) → Fin (c + 1) → ℝ)
    (eps_target : ℝ) :
    (epsilon_total n c logits eps_target =
      Finset.univ.sup' Finset.univ_nonempty
        (fun p : Fin (n + 1) × Fin (c + 1) =>
          max (|log_softmax n c logits p.1.succ p.2
                - log_softmax n c logits p.1.castSucc p.2| - eps_target) 0)) ∧
    (epsilon_total n c logits eps_target = 0 ↔
      ∀ (i : Fin (n + 1)) (k : Fin (c + 1)),
        |log_softmax n c logits i.succ k - log_softmax n c logits i.castSucc k| ≤ eps_target) ∧
    (0 < epsilon_total n c logits eps_target ↔
      ∃ (i : Fin (n + 1)) (k : Fin (c + 1)),
        eps_target < |log_softmax n c logits i.succ k - log_softmax n c logits i.castSucc k|) := by
  refine ⟨rfl, ?_, ?_⟩
  · constructor
    · intro h0 i k
      have hle := Finset.le_sup' (α := ℝ)
        (fun p : Fin (n + 1) × Fin (c + 1) =>
          max (|log_softmax n c logits p.1.succ p.2
                - log_softmax n c logits p.1.castSucc p.2| - eps_target) 0)
        (Finset.mem_univ (i, k))
      rw [epsilon_total] at h0
      rw [h0] at hle
      have := le_max_right (|log_softmax n c logits i.succ k
        - log_softmax n c logits i.castSucc k| - eps_target) (0 : ℝ)
      have hmax0 : max (|log_softmax n c logits i.succ k
          - log_softmax n c logits i.castSucc k| - eps_target) (0 : ℝ) = 0 :=
        le_antisymm hle (le_max_right _ _)
      have hsub : |log_softmax n c logits i.succ k
          - log_softmax n c logits i.castSucc k| - eps_target ≤ 0 := by
        rw [← hmax0]
        exact le_max_left _ _
      linarith
    · intro hall
      apply le_antisymm
      · rw [epsilon_total]
        apply Finset.sup'_le
        intro p _
        have := hall p.1 p.2
        apply max_le (by linarith) le_rfl
      · rw [epsilon_total]
        have h00 := Finset.le_sup' (α := ℝ)
          (fun p : Fin (n + 1) × Fin (c + 1) =>
            max (|log_softmax n c logits p.1.succ p.2
                  - log_softmax n c logits p.1.castSucc p.2| - eps_target) 0)
          (Finset.mem_univ ((0 : Fin (n + 1)), (0 : Fin (c + 1))))
        exact le_trans (le_max_right _ 0) h00
  · rw [epsilon_total, Finset.lt_sup'_iff]
    constructor
    · rintro ⟨⟨i, k⟩, -, hlt⟩
      refine ⟨i, k, ?_⟩
      rcases lt_max_iff.mp hlt with h | h
      · linarith
      · exact absurd h (lt_irrefl 0)
    · rintro ⟨i, k, hik⟩
      exact ⟨(i, k), Finset.mem_univ _, lt_max_iff.mpr (Or.inl (by linarith))⟩

/-- C2: `delta_total` is the maximum of the "add" direction (max over
adjacent pairs of the per-row sum of positive parts of
`p_i - e^eps * p_(i+1)`) and the mirrored "remove" direction. -/
theorem c2_delta_total (n c : ℕ) (logits : Fin (n + 2) → Fin (c + 1) → ℝ)
    (eps_target : ℝ) :
    delta_total n c logits eps_target =
      max
        (Finset.univ.sup' Finset.univ_nonempty
          (fun i : Fin (n + 1) => ∑ k,
            max (probs n c logits i.castSucc k
                  - Real.exp eps_target * probs n c logits i.succ k) 0))
        (Finset.univ.sup' Finset.univ_nonempty
          (fun i : Fin (n + 1) => ∑ k,
            max (probs n c logits i.succ k
                  - Real.exp eps_target * probs n c logits i.castSucc k) 0)) := rfl

/-- C10: for every logits array and non-negative target epsilon, the
empirical `delta_total` lies in `[0, 1]`. -/
theorem c10_delta_total_in_unit_interval (n c : ℕ)
    (logits : Fin (n + 2) → Fin (c + 1) → ℝ) (eps_target : ℝ)
    (_heps : 0 ≤ eps_target) :
    0 ≤ delta_total n c logits eps_target ∧ delta_total n c logits eps_target ≤ 1 := by
  constructor
  · refine le_trans ?_ (le_max_left (delta_add n c logits eps_target) _)
    rw [delta_add]
    refine le_trans ?_ (Finset.le_sup' _ (Finset.mem_univ (0 : Fin (n + 1))))
    exact Finset.sum_nonneg (fun k _ => le_max_right _ 0)
  · apply max_le
    · rw [delta_add]
      exact Finset.sup'_le _ _ (fun i _ => clip_sum_le_one n c logits eps_target _ _)
    · rw [delta_remove]
      exact Finset.sup'_le _ _ (fun i _ => clip_sum_le_one n c logits eps_target _ _)

/-- C10 witness: the bounds evaluated at the all-zero 2 × 1 logits array
with target epsilon `0`. -/
theorem c10_delta_total_in_unit_interval_witness :
    0 ≤ delta_total 0 0 (fun _ _ => 0) 0 ∧ delta_total 0 0 (fun _ _ => 0) 0 ≤ 1 :=
  c10_delta_total_in_unit_interval 0 0 (fun _ _ => 0) 0 le_rfl

/-! ### Claims about the category table -/

/-- C3 counterexample: with ascending edges `[0, 1]` that do not cover the
seat range `0..3` (last edge `1 < 3`), the construction does **not**
produce a table reusing the last category for the out-of-range indices —
it raises an IndexError (modelled `none`): at seat `i = 2` the cursor is
bumped to `j = 2` and `np.eye(2)[2]` is out of bounds. -/
theorem c3_counterexample : categories 3 2 [0, 1] = none := by decide

/-- C3 (amended): with strictly ascending boundary edges, one per category,
whose last edge is smaller than the largest seat index, the category-table
construction fails with an IndexError (modelled as `none`); it does not
silently reuse the last category for the out-of-range indices. -/
theorem c3_out_of_range_edges_fail (seats c : ℕ) (es : List ℕ)
    (hs : es.Pairwise (· < ·)) (hlen : es.length = c) (hc : 0 < c)
    (hlast : es.getD (c - 1) 0 < seats) :
    categories seats c es = none := by
  cases hres : categories seats c es with
  | none => rfl
  | some t =>
    exfalso
    have hsome : (catLoop es c (seats + 1) 0 0).isSome = true := by
      unfold categories at hres
      rw [hres]
      rfl
    have hbound := catLoop_bound es c hs hlen (seats + 1) 0 0 (by omega) (by omega) hsome
    rw [hlen] at hbound
    omega

/-- C3 witness: the amended theorem applied at the concrete configuration
`seats = 5`, `c = 3`, `es = [0, 1, 2]`, whose last edge `2` is below the
largest seat index `5`. -/
theorem c3_out_of_range_edges_fail_witness : categories 5 3 [0, 1, 2] = none :=
  c3_out_of_range_edges_fail 5 3 [0, 1, 2] (by decide) rfl (by decide) (by decide)

/-- C6: in the concrete 79 × 6 table, the construction succeeds, every row
is one-hot (entries in `{0, 1}`, exactly one `1`, sum exactly `1`, length
6), and the assigned category index is monotonically non-decreasing in the
seat index. -/
theorem c6_one_hot_monotone :
    (categories n_seats n_cats cat_edges).isSome = true ∧
    (∀ row ∈ catTable,
      row.length = 6 ∧ row.sum = 1 ∧ row.count 1 = 1 ∧ ∀ x ∈ row, x = 0 ∨ x = 1) ∧
    List.Pairwise (· ≤ ·) (catTable.map (fun r => r.indexOf 1)) := by decide

/-- C7: with `n_seats = 78`, `n_cats = 6`, `cat_edges = [5,40,50,65,72,78]`,
seat 0 is assigned category 0, seat 6 category 1, and seat 78 category 5. -/
theorem c7_concrete_assignments :
    catTable[0]? = some (oneHot 6 0) ∧
    catTable[6]? = some (oneHot 6 1) ∧
    catTable[78]? = some (oneHot 6 5) := by decide

/-! ### Claims about startup, the penalty path and the trial loop -/

/-- C4: the penalty path depends only on the target delta: delta exactly
`0` selects the pure-DP penalty with the target epsilon, and any delta
strictly greater than `0` selects the approximate-DP penalty with the
target epsilon and delta. -/
theorem c4_penalty_path (epsilon delta_target : ℝ) :
    (delta_target = 0 →
      dp_penalty_fn epsilon delta_target = DpPenaltyKind.pure_dp epsilon) ∧
    (0 < delta_target →
      dp_penalty_fn epsilon delta_target = DpPenaltyKind.adp epsilon delta_target) := by
  constructor
  · intro h
    rw [dp_penalty_fn, if_pos h]
  · intro h
    rw [dp_penalty_fn, if_neg (ne_of_gt h)]

/-- C4 witness: delta `0` picks the pure-DP path and delta `1` the
approximate-DP path, at epsilon `1`. -/
theorem c4_penalty_path_witness :
    dp_penalty_fn 1 0 = DpPenaltyKind.pure_dp 1 ∧
    dp_penalty_fn 1 1 = DpPenaltyKind.adp 1 1 :=
  ⟨(c4_penalty_path 1 0).1 rfl, (c4_penalty_path 1 1).2 one_pos⟩

/-- C5: invalid privacy parameters (epsilon not strictly positive, or delta
outside `[0, 1]`) make the startup assertion abort before the study is
created and before any trial runs, while any epsilon `> 0` with delta in
`[0, 1]` passes the assertion and execution continues. -/
theorem c5_assertion_guards_startup (epsilon delta_target : ℝ) (num_trials : ℕ) :
    (¬ (0 < epsilon ∧ 0 ≤ delta_target ∧ delta_target ≤ 1) →
      main_startup epsilon delta_target num_trials = none) ∧
    ((0 < epsilon ∧ 0 ≤ delta_target ∧ delta_target ≤ 1) →
      main_startup epsilon delta_target num_trials =
        some (dp_penalty_fn epsilon delta_target, num_trials)) := by
  constructor
  · intro h
    rw [main_startup, if_neg h]
  · intro h
    rw [main_startup, if_pos h]

/-- C5 witness: `epsilon = 0` aborts, `delta = 1.5` aborts, and the default
configuration `epsilon = 1`, `delta = 1e-5` continues (with two trials). -/
theorem c5_assertion_guards_startup_witness :
    main_startup 0 (1e-5) 2 = none ∧
    main_startup 1 (3 / 2) 2 = none ∧
    main_startup 1 (1e-5) 2 = some (dp_penalty_fn 1 (1e-5), 2) :=
  ⟨(c5_assertion_guards_startup 0 (1e-5) 2).1 (by norm_num),
   (c5_assertion_guards_startup 1 (3 / 2) 2).1 (by norm_num),
   (c5_assertion_guards_startup 1 (1e-5) 2).2 (by norm_num)⟩

/-- C9: for any sampler honouring the bounded-range contract, the three
weights are sampled from exactly `[1e-3, 10]`, `[1e-4, 1]` and
`[1e-5, 1e-3]` respectively. -/
theorem c9_weight_ranges (suggest : String → ℝ → ℝ → ℝ)
    (h : ∀ name lo hi, lo ≤ hi → lo ≤ suggest name lo hi ∧ suggest name lo hi ≤ hi) :
    ((1e-3 : ℝ) ≤ (sample_weights suggest).dp_weight ∧
      (sample_weights suggest).dp_weight ≤ 10) ∧
    ((1e-4 : ℝ) ≤ (sample_weights suggest).l2_weight ∧
      (sample_weights suggest).l2_weight ≤ 1) ∧
    ((1e-5 : ℝ) ≤ (sample_weights suggest).dist_weight ∧
      (sample_weights suggest).dist_weight ≤ 1e-3) := by
  have h1 := h "dp weight" 1e-3 1e1 (by norm_num)
  have h2 := h "l2 weight" 1e-4 1e0 (by norm_num)
  have h3 := h "dist. weight" 1e-5 1e-3 (by norm_num)
  have e1 : (1e1 : ℝ) = 10 := by norm_num
  have e2 : (1e0 : ℝ) = 1 := by norm_num
  exact ⟨⟨h1.1, e1 ▸ h1.2⟩, ⟨h2.1, e2 ▸ h2.2⟩, h3⟩

/-- C9 witness: the ranges evaluated for the sampler that always returns
the lower bound. -/
theorem c9_weight_ranges_witness :
    ((1e-3 : ℝ) ≤ (sample_weights (fun _ lo _ => lo)).dp_weight ∧
      (sample_weights (fun _ lo _ => lo)).dp_weight ≤ 10) ∧
    ((1e-4 : ℝ) ≤ (sample_weights (fun _ lo _ => lo)).l2_weight ∧
      (sample_weights (fun _ lo _ => lo)).l2_weight ≤ 1) ∧
    ((1e-5 : ℝ) ≤ (sample_weights (fun _ lo _ => lo)).dist_weight ∧
      (sample_weights (fun _ lo _ => lo)).dist_weight ≤ 1e-3) :=
  c9_weight_ranges (fun _ lo _ => lo) (fun _ _ _ hle => ⟨le_rfl, hle⟩)

/-- C8: for every learned logits array and targets, the objective returns
the 4-tuple (utility-deviation norm, DP-parameter-deviation sum of norms,
count of seats whose furthest-category probability exceeds `1e-3`, norm of
those probabilities), and each of the four scalars is non-negative. -/
theorem c8_objective_tuple_nonneg (logits : Fin 79 → Fin 6 → ℝ)
    (epsilon delta_target : ℝ) :
    objective_values logits epsilon delta_target =
      (logp_loss logits, dp_params_loss logits epsilon delta_target,
        dist_loss logits, npNorm (fun i => Real.exp (furthest_cat_logp logits i))) ∧
    0 ≤ (objective_values logits epsilon delta_target).1 ∧
    0 ≤ (objective_values logits epsilon delta_target).2.1 ∧
    0 ≤ (objective_values logits epsilon delta_target).2.2.1 ∧
    0 ≤ (objective_values logits epsilon delta_target).2.2.2 := by
  refine ⟨rfl, Real.sqrt_nonneg _, add_nonneg (abs_nonneg _) (abs_nonneg _), ?_, Real.sqrt_nonneg _⟩
  show (0 : ℝ) ≤ dist_loss logits
  rw [dist_loss]
  apply Finset.sum_nonneg
  intro i _
  split
  · exact zero_le_one
  · exact le_rfl

end HyperparamOpt
